import Mathlib

/-!
Verification of the RAP-MUSIC core (`mne/beamformer/_rap_music.py`): a
shallow embedding of `_apply_rap_music`, `_compute_subcorr` and
`_compute_proj` over real matrices.  The external linear-algebra library
routines called by the code (`scipy.linalg.eigh`, `numpy.linalg.qr`,
`scipy.linalg.pinv`, `scipy.linalg.lstsq`) are not part of the
repository; they are treated as oracle inputs, constrained in the
theorems by their documented contracts (eigendecomposition of a
symmetric matrix with ascending eigenvalues and orthonormal
eigenvectors, orthonormal QR factor, Moore-Penrose axioms, least-squares
normal equations).
-/

namespace RapMusic

open Matrix

/-- Embedding of the `G.shape[1] == 1` branch of `_compute_subcorr`
(lines 139-143): `subcorr = (Gᵀ·Φ)·(Φᵀ·G)` as a 1x1 matrix, and the
function returns `sqrt(subcorr / (Gᵀ·G))` with the trivial orientation
`np.ones(1)`. -/
noncomputable def computeSubcorr1 {m r : ℕ} (G : Matrix (Fin m) (Fin 1) ℝ)
    (phi : Matrix (Fin m) (Fin r) ℝ) : ℝ × (Fin 1 → ℝ) :=
  (Real.sqrt ((((Gᵀ * phi) * (phiᵀ * G)) 0 0) / ((Gᵀ * G) 0 0)), fun _ => 1)

/-- Embedding of the free-orientation branch of `_compute_subcorr`
(lines 144-151): `Ug = qr(G, mode='reduced')[0]`,
`M = (Ugᵀ·Φ)·(Φᵀ·Ug)`, `eigh` returns eigenvalues in ascending order,
and the function returns `sqrt` of the last eigenvalue together with the
last eigenvector column.  `qrQ` and `eigh` are the library oracles. -/
noncomputable def computeSubcorr3 {m r : ℕ}
    (qrQ : Matrix (Fin m) (Fin 3) ℝ → Matrix (Fin m) (Fin 3) ℝ)
    (eigh : Matrix (Fin 3) (Fin 3) ℝ → (Fin 3 → ℝ) × Matrix (Fin 3) (Fin 3) ℝ)
    (G : Matrix (Fin m) (Fin 3) ℝ) (phi : Matrix (Fin m) (Fin r) ℝ) :
    ℝ × (Fin 3 → ℝ) :=
  let Ug := qrQ G
  let M := (Ugᵀ * phi) * (phiᵀ * Ug)
  (Real.sqrt ((eigh M).1 2), fun i => (eigh M).2 i 2)

/-- Embedding of `_compute_proj` (lines 154-161):
`P = I - A·pinv(Aᵀ·A)·Aᵀ`, with `pinv` the library pseudoinverse passed
as an oracle. -/
noncomputable def computeProj {m k : ℕ}
    (pinv : Matrix (Fin k) (Fin k) ℝ → Matrix (Fin k) (Fin k) ℝ)
    (A : Matrix (Fin m) (Fin k) ℝ) : Matrix (Fin m) (Fin m) ℝ :=
  1 - A * pinv (Aᵀ * A) * Aᵀ

/-- State tracked by the inner SEARCH scan of `_apply_rap_music`
(lines 100-108): the running maximum `subcorr_max`, the candidate index
stored into `active_set[k]`, and the column stored into `A[:, k]`. -/
structure Best (m : ℕ) where
  val : ℝ
  idx : ℤ
  acol : Fin m → ℝ

/-- Embedding of the inner scan of `_apply_rap_music` (lines 100-108):
starting from `subcorr_max = -1` and `active_set[k] = -1` (with `A[:,k]`
still the zero column it was initialised to), each candidate replaces
the running best exactly when its subcorr is strictly greater.
`cand i` packages the subcorr of candidate `i` and the column
`np.dot(Gk, ori)` it would write into `A[:, k]`. -/
noncomputable def searchRound {m : ℕ} (nc : ℕ) (cand : ℕ → ℝ × (Fin m → ℝ)) :
    Best m :=
  (List.range nc).foldl
    (fun b i => if b.val < (cand i).1 then ⟨(cand i).1, (i : ℤ), (cand i).2⟩ else b)
    ⟨-1, -1, fun _ => 0⟩

/-- Column `i` of the (width-1) working leadfield, as the 1-column block
`G_proj[:, i:i+1]` sliced on line 102. -/
def colBlock {m nc : ℕ} (M : Matrix (Fin m) (Fin nc) ℝ) (i : ℕ) :
    Matrix (Fin m) (Fin 1) ℝ :=
  fun a _ => if h : i < nc then M a ⟨i, h⟩ else 0

/-- Candidate evaluation in one round for the width-1 (fixed or normal
orientation) case: the subcorr of `Gk = G_proj[:, i:i+1]` against the
deflated basis, and the column `np.dot(Gk, ori)`. -/
noncomputable def roundEval {m nc r : ℕ} (Gp : Matrix (Fin m) (Fin nc) ℝ)
    (phip : Matrix (Fin m) (Fin r) ℝ) (i : ℕ) : ℝ × (Fin m → ℝ) :=
  let Gk := colBlock Gp i
  let sc := computeSubcorr1 Gk phip
  (sc.1, fun a => ∑ j : Fin 1, Gk a j * sc.2 j)

/-- Loop state of `_apply_rap_music`: the columns of `A` filled so far
(in discovery order), the entries of `active_set` filled so far, and the
working (deflated) leadfield `G_proj` and subspace basis
`phi_sig_proj`. -/
structure LoopState (m nc r : ℕ) where
  cols : List (Fin m → ℝ)
  active : List ℤ
  Gp : Matrix (Fin m) (Fin nc) ℝ
  phip : Matrix (Fin m) (Fin r) ℝ

/-- The matrix `A[:, :k]` whose columns are the recorded topography
columns in discovery order. -/
def colsMatrix {m : ℕ} (l : List (Fin m → ℝ)) :
    Matrix (Fin m) (Fin l.length) ℝ :=
  fun i j => l.get j i

/-- One round `k` of the greedy loop (lines 99-116): run the SEARCH scan
over all candidates of the working leadfield, append the winning column
to `A` and the winning index to `active_set`, then rebuild the projector
from `A[:, :k+1]` and deflate the original leadfield and basis with
it (`G_proj = P·G`, `phi_sig_proj = P·phi_sig`). -/
noncomputable def roundStep {m nc r : ℕ} (G : Matrix (Fin m) (Fin nc) ℝ)
    (phi : Matrix (Fin m) (Fin r) ℝ)
    (pinvO : (k : ℕ) → Matrix (Fin k) (Fin k) ℝ → Matrix (Fin k) (Fin k) ℝ)
    (st : LoopState m nc r) : LoopState m nc r :=
  let b := searchRound nc (roundEval st.Gp st.phip)
  let cols' := st.cols ++ [b.acol]
  let P := computeProj (pinvO cols'.length) (colsMatrix cols')
  ⟨cols', st.active ++ [b.idx], P * G, P * phi⟩

/-- The loop state after `k` rounds; the loop starts from the
un-deflated `G_proj = G`, `phi_sig_proj = phi_sig` (lines 96-97) with
`A` all zeros and `active_set` all `-1` (modelled by the lists being
empty, entries appended as the slots are written). -/
noncomputable def loopState {m nc r : ℕ} (G : Matrix (Fin m) (Fin nc) ℝ)
    (phi : Matrix (Fin m) (Fin r) ℝ)
    (pinvO : (k : ℕ) → Matrix (Fin k) (Fin k) ℝ → Matrix (Fin k) (Fin k) ℝ) :
    ℕ → LoopState m nc r
  | 0 => ⟨[], [], G, phi⟩
  | k + 1 => roundStep G phi pinvO (loopState G phi pinvO k)

/-- Embedding of the numpy slice `eig_vectors[:, -r:]` (line 90): the
last `min r n` columns; for `r ≥ n` the slice silently yields the whole
matrix instead of failing. -/
def lastCols {n : ℕ} (r : ℕ) (V : Matrix (Fin n) (Fin n) ℝ) :
    Matrix (Fin n) (Fin (min r n)) ℝ :=
  fun i j =>
    V i ⟨n - min r n + j.1,
      lt_of_lt_of_le (Nat.add_lt_add_left j.2 _)
        (le_of_eq (Nat.sub_add_cancel (Nat.min_le_right r n)))⟩

/-- Numpy integer indexing of a column axis of width `n`: a negative
index wraps around once (`z + n` for `-n ≤ z < 0`). -/
def pyIdx (z : ℤ) (n : ℕ) (h : 0 < n) : Fin n :=
  ⟨(z % (n : ℤ)).toNat, by
    have hn : (0 : ℤ) < (n : ℤ) := by exact_mod_cast h
    have h1 : z % (n : ℤ) < (n : ℤ) := Int.emod_lt_of_pos z hn
    have h2 : 0 ≤ z % (n : ℤ) := Int.emod_nonneg z (ne_of_gt hn)
    omega⟩

/-- Result of the core pipeline: the sorted active set (line 121), the
explained data `D` (line 124) and the residual `evoked.data - D`
(line 228). -/
structure RapResult (m t : ℕ) where
  activeSorted : List ℤ
  D : Matrix (Fin m) (Fin t) ℝ
  resid : Matrix (Fin m) (Fin t) ℝ

/-- Pipeline for a fixed-orientation forward (`is_free_ori = False`,
`pick_ori = None`): one gain column per candidate.  `gain = G.copy()`
(line 71) is kept unwhitened, the search runs on `whitener·gain`
(line 77) against `phi_sig = eig_vectors[:, -r:]` (lines 89-90, with
`eig_vectors` the eigenvector oracle of the whitened data covariance),
`active_set` is sorted ascending (line 121),
`D = gain[:, active_set]·sol` (line 124) with `sol` the least-squares
oracle (line 119), and the caller receives `evoked.data - D`
(line 228). -/
noncomputable def applyFixed {m nc t : ℕ} (gain : Matrix (Fin m) (Fin nc) ℝ)
    (whitener : Matrix (Fin m) (Fin m) ℝ) (dataOrig : Matrix (Fin m) (Fin t) ℝ)
    (r : ℕ) (eighVecs : Matrix (Fin m) (Fin m) ℝ)
    (pinvO : (k : ℕ) → Matrix (Fin k) (Fin k) ℝ → Matrix (Fin k) (Fin k) ℝ)
    (nsrc : ℕ) (sol : Matrix (Fin nsrc) (Fin t) ℝ) : RapResult m t :=
  let G := whitener * gain
  let phi := lastCols r eighVecs
  let fin := loopState G phi pinvO nsrc
  let act := fin.active.insertionSort (· ≤ ·)
  let D : Matrix (Fin m) (Fin t) ℝ := fun i ti =>
    ∑ k : Fin nsrc,
      (if h : 0 < nc then gain i (pyIdx (act.getD k.1 (-1)) nc h) else 0) * sol k ti
  ⟨act, D, dataOrig - D⟩

/-- The `pick_ori='normal'` column slice `G[:, 2::3]` of line 86: the
normal-orientation column of each candidate's 3-column block. -/
def sliceNormal {m nc : ℕ} (Gw : Matrix (Fin m) (Fin (3 * nc)) ℝ) :
    Matrix (Fin m) (Fin nc) ℝ :=
  fun i j => Gw i ⟨3 * j.1 + 2, by have h := j.2; omega⟩

/-- Pipeline for a free-orientation forward with `pick_ori = 'normal'`:
the gain has a contiguous 3-column block per candidate, the search runs
on the slice `G[:, 2::3]` of the whitened gain (line 86), but
`D = gain[:, active_set]·sol` (line 124) still indexes the *unsliced*
`gain` (copied on line 71, before the slice) directly by candidate
index. -/
noncomputable def applyNormal {m nc t : ℕ}
    (gain : Matrix (Fin m) (Fin (3 * nc)) ℝ)
    (whitener : Matrix (Fin m) (Fin m) ℝ) (dataOrig : Matrix (Fin m) (Fin t) ℝ)
    (r : ℕ) (eighVecs : Matrix (Fin m) (Fin m) ℝ)
    (pinvO : (k : ℕ) → Matrix (Fin k) (Fin k) ℝ → Matrix (Fin k) (Fin k) ℝ)
    (nsrc : ℕ) (sol : Matrix (Fin nsrc) (Fin t) ℝ) : RapResult m t :=
  let Gw := whitener * gain
  let G : Matrix (Fin m) (Fin nc) ℝ := sliceNormal Gw
  let phi := lastCols r eighVecs
  let fin := loopState G phi pinvO nsrc
  let act := fin.active.insertionSort (· ≤ ·)
  let D : Matrix (Fin m) (Fin t) ℝ := fun i ti =>
    ∑ k : Fin nsrc,
      (if h : 0 < 3 * nc then gain i (pyIdx (act.getD k.1 (-1)) (3 * nc) h) else 0) *
        sol k ti
  ⟨act, D, dataOrig - D⟩

/-- Python list indexing with a single wrap-around for negative indices
and `none` (an `IndexError`) out of bounds. -/
def pyGet {α : Type} (l : List α) (z : ℤ) : Option α :=
  if 0 ≤ z then l.get? z.toNat
  else if 0 ≤ z + l.length then l.get? (z + l.length).toNat else none

/-- Indices of the sorted active set routed to the right hemisphere by
line 126: the boolean mask `active_set > vertno[0].size`. -/
def vertnoRightSel (v0 : List ℕ) (act : List ℤ) : List ℤ :=
  act.filter fun i => decide ((v0.length : ℤ) < i)

/-- Indices of the sorted active set routed to the left hemisphere by
line 128: the boolean mask `active_set <= vertno[0].size`. -/
def vertnoLeftSel (v0 : List ℕ) (act : List ℤ) : List ℤ :=
  act.filter fun i => decide (i ≤ (v0.length : ℤ))

/-- Right-hemisphere vertex lookups of line 126:
`vertno[1][active_set[mask] - vertno[0].size]`. -/
def vertnoRight (v0 v1 : List ℕ) (act : List ℤ) : List (Option ℕ) :=
  (vertnoRightSel v0 act).map fun i => pyGet v1 (i - v0.length)

/-- Left-hemisphere vertex lookups of line 128:
`vertno[0][active_set[mask]]`. -/
def vertnoLeft (v0 : List ℕ) (act : List ℤ) : List (Option ℕ) :=
  (vertnoLeftSel v0 act).map fun i => pyGet v0 i

/-! ### Concrete instances used by witnesses and counterexamples -/

/-- Single-column basis `Φ = e₀` over three channels. -/
def phiW : Matrix (Fin 3) (Fin 1) ℝ :=
  Matrix.of fun i _ => if i = 0 then 1 else 0

/-- Concrete eigenvector oracle output: columns `e₁, e₂, e₀`. -/
def vecsW : Matrix (Fin 3) (Fin 3) ℝ :=
  !![0, 0, 1; 1, 0, 0; 0, 1, 0]

/-- Concrete ascending eigenvalue oracle output `(0, 0, 1)`. -/
def valsW : Fin 3 → ℝ := ![0, 0, 1]

/-- Concrete `eigh` oracle returning `valsW`, `vecsW`. -/
def eighW : Matrix (Fin 3) (Fin 3) ℝ → (Fin 3 → ℝ) × Matrix (Fin 3) (Fin 3) ℝ :=
  fun _ => (valsW, vecsW)

/-- Concrete `qr` oracle returning the identity. -/
def qrQW : Matrix (Fin 3) (Fin 3) ℝ → Matrix (Fin 3) (Fin 3) ℝ := fun _ => 1

/-- Concrete candidate block: the identity over three channels. -/
def GW : Matrix (Fin 3) (Fin 3) ℝ := 1

/-- Constant candidate evaluation with subcorr `1`: an exact tie. -/
def candTie : ℕ → ℝ × (Fin 1 → ℝ) := fun _ => (1, fun _ => 0)

/-- Identity pseudoinverse oracle; it agrees with the true Moore-Penrose
pseudoinverse on every Gram matrix produced in the concrete runs below
(those Gram matrices are symmetric idempotent). -/
def pinvId : (k : ℕ) → Matrix (Fin k) (Fin k) ℝ → Matrix (Fin k) (Fin k) ℝ :=
  fun _ M => M

/-- Two-candidate whitened leadfield with columns `(1,0)` and `(1,1)`. -/
def G1 : Matrix (Fin 2) (Fin 2) ℝ := !![1, 1; 0, 1]

/-- Full orthonormal subspace basis over two channels. -/
def phi2 : Matrix (Fin 2) (Fin 2) ℝ := 1

/-- First standard basis column of ℝ² as a function. -/
def e0c : Fin 2 → ℝ := fun a => if a = 0 then 1 else 0

/-- Second standard basis column of ℝ² as a function. -/
def e1c : Fin 2 → ℝ := fun a => if a = 1 then 1 else 0

/-- Zero column of ℝ² as a function. -/
def zc : Fin 2 → ℝ := fun _ => 0

/-- First standard basis column of ℝ² as a 2x1 matrix. -/
def e0mat : Matrix (Fin 2) (Fin 1) ℝ := !![1; 0]

/-- Second standard basis column of ℝ² as a 2x1 matrix. -/
def e1mat : Matrix (Fin 2) (Fin 1) ℝ := !![0; 1]

/-- Deflation projector `I - e₀·e₀ᵀ` over two channels. -/
def PD : Matrix (Fin 2) (Fin 2) ℝ := !![0, 0; 0, 1]

/-- Unwhitened free-orientation gain over two channels and two
candidates (three columns per candidate): candidate 0 has normal column
`(1,0)` (column 2) and candidate 1 has normal column `(0,1)` (column 5);
column 0 is `(5,0)`. -/
def gain5 : Matrix (Fin 2) (Fin (3 * 2)) ℝ :=
  Matrix.of fun i j =>
    if i.1 = 0 ∧ j.1 = 0 then 5
    else if i.1 = 0 ∧ j.1 = 2 then 1
    else if i.1 = 1 ∧ j.1 = 5 then 1 else 0

/-- Eigenvector oracle output for the data covariance `diag(1,0)`:
ascending eigenvalues `(0,1)` with eigenvector columns `e₁, e₀`. -/
def eighV5 : Matrix (Fin 2) (Fin 2) ℝ := !![0, 1; 1, 0]

/-- The corresponding eigenvector slice for `r = 1`: the single column
`e₀`. -/
noncomputable def phi5 : Matrix (Fin 2) (Fin (min 1 2)) ℝ := lastCols 1 eighV5

/-- Least-squares oracle output for `A = e₀`, whitened data `e₀`. -/
def sol5 : Matrix (Fin 1) (Fin 1) ℝ := !![1]

/-- Rank-one Gram matrix `e₀·e₀ᵀ` over two channels. -/
def E00 : Matrix (Fin 2) (Fin 2) ℝ := !![1, 0; 0, 0]

/-- Modelled from the spec (claim C5's reading of lines 121-124 for the
`pick_ori='normal'` pipeline): the explained data is the original
unwhitened leadfield restricted to the *selected sources' normal
columns* — column `3·idx + 2` for a selected candidate `idx` — times the
fitted amplitudes. -/
def specExplainedDataNormal {m nc t nsrc : ℕ}
    (gain : Matrix (Fin m) (Fin (3 * nc)) ℝ) (act : List ℤ)
    (sol : Matrix (Fin nsrc) (Fin t) ℝ) : Matrix (Fin m) (Fin t) ℝ :=
  fun i ti =>
    ∑ k : Fin nsrc,
      (if h : 0 < 3 * nc then
        gain i (pyIdx (3 * act.getD k.1 (-1) + 2) (3 * nc) h) else 0) * sol k ti

/-- Explained data as described by the spec for a width-1 (fixed
orientation) gain: the columns of the unwhitened gain at the selected
candidate indices times the amplitudes. -/
def specExplainedDataFixed {m nc t nsrc : ℕ}
    (gain : Matrix (Fin m) (Fin nc) ℝ) (act : List ℤ)
    (sol : Matrix (Fin nsrc) (Fin t) ℝ) : Matrix (Fin m) (Fin t) ℝ :=
  fun i ti =>
    ∑ k : Fin nsrc,
      (if h : 0 < nc then gain i (pyIdx (act.getD k.1 (-1)) nc h) else 0) * sol k ti

/-! ### Quadratic-form helpers -/

/-- The diagonal entry of `Xᵀ·X` is a sum of squares, hence nonnegative. -/
lemma entry_mul_self_nonneg {m : ℕ} (X : Matrix (Fin m) (Fin 1) ℝ) :
    0 ≤ (Xᵀ * X) 0 0 := by
  rw [Matrix.mul_apply]
  refine Finset.sum_nonneg fun i _ => ?_
  rw [Matrix.transpose_apply]
  exact mul_self_nonneg _

/-- A real matrix with `Xᵀ·X = 0` is zero. -/
lemma eq_zero_of_transpose_mul_self {m k : ℕ} (X : Matrix (Fin m) (Fin k) ℝ)
    (h : Xᵀ * X = 0) : X = 0 := by
  ext i j
  have hd : (Xᵀ * X) j j = (0 : ℝ) := by rw [h]; simp
  rw [Matrix.mul_apply] at hd
  simp only [Matrix.transpose_apply] at hd
  have hz :=
    (Finset.sum_eq_zero_iff_of_nonneg fun c _ => mul_self_nonneg (X c j)).1 hd i
      (Finset.mem_univ i)
  simpa using mul_self_eq_zero.1 hz

/-- Quadratic form of a symmetric idempotent matrix: nonnegative and
dominated by the plain squared norm. -/
lemma sym_idem_quad {m : ℕ} (S : Matrix (Fin m) (Fin m) ℝ) (hs : Sᵀ = S)
    (hi : S * S = S) (Y : Matrix (Fin m) (Fin 1) ℝ) :
    0 ≤ (Yᵀ * (S * Y)) 0 0 ∧ (Yᵀ * (S * Y)) 0 0 ≤ (Yᵀ * Y) 0 0 := by
  have h1 : Yᵀ * (S * Y) = (S * Y)ᵀ * (S * Y) := by
    rw [Matrix.transpose_mul, hs, Matrix.mul_assoc, ← Matrix.mul_assoc S S Y, hi]
  have hone : (1 - S) * (1 - S) = 1 - S := by
    rw [Matrix.mul_sub, Matrix.mul_one, Matrix.sub_mul, Matrix.one_mul, hi,
      sub_self, sub_zero]
  have hsymm : (1 - S)ᵀ = 1 - S := by rw [Matrix.transpose_sub, Matrix.transpose_one, hs]
  have h2 : Yᵀ * Y - Yᵀ * (S * Y) = ((1 - S) * Y)ᵀ * ((1 - S) * Y) := by
    rw [Matrix.transpose_mul, hsymm, Matrix.mul_assoc, ← Matrix.mul_assoc (1 - S) (1 - S) Y,
      hone, Matrix.sub_mul, Matrix.one_mul, Matrix.mul_sub]
  constructor
  · rw [h1]; exact entry_mul_self_nonneg _
  · have h3 := entry_mul_self_nonneg (((1 : Matrix (Fin m) (Fin m) ℝ) - S) * Y)
    rw [← h2] at h3
    have h4 : (Yᵀ * Y - Yᵀ * (S * Y)) 0 0 =
        (Yᵀ * Y) 0 0 - (Yᵀ * (S * Y)) 0 0 := by simp [Matrix.sub_apply]
    rw [h4] at h3
    linarith

/-! ### Penrose identities for `_compute_proj` -/

/-- From the first Penrose axiom for `B` against `M = Aᵀ·A`, the matrix
`A·B·(Aᵀ·A)` equals `A`. -/
lemma penrose_aux {m k : ℕ} (A : Matrix (Fin m) (Fin k) ℝ)
    (B : Matrix (Fin k) (Fin k) ℝ)
    (h1 : Aᵀ * A * B * (Aᵀ * A) = Aᵀ * A) :
    A * B * (Aᵀ * A) = A := by
  have q : Aᵀ * (A * B * (Aᵀ * A)) = Aᵀ * A := by
    rw [Matrix.mul_assoc A B (Aᵀ * A), ← Matrix.mul_assoc Aᵀ A (B * (Aᵀ * A)),
      ← Matrix.mul_assoc (Aᵀ * A) B (Aᵀ * A), h1]
  have hZt : (A * B * (Aᵀ * A))ᵀ = Aᵀ * A * (Bᵀ * Aᵀ) := by
    rw [Matrix.transpose_mul (A * B) (Aᵀ * A), Matrix.transpose_mul Aᵀ A,
      Matrix.transpose_transpose, Matrix.transpose_mul A B]
  have e3 : (A * B * (Aᵀ * A))ᵀ * (A * B * (Aᵀ * A)) =
      Aᵀ * A * (Bᵀ * (Aᵀ * A)) := by
    rw [hZt, Matrix.mul_assoc (Aᵀ * A) (Bᵀ * Aᵀ) (A * B * (Aᵀ * A)),
      Matrix.mul_assoc Bᵀ Aᵀ (A * B * (Aᵀ * A)), q]
  have e4 : (A * B * (Aᵀ * A))ᵀ * A = Aᵀ * A * (Bᵀ * (Aᵀ * A)) := by
    rw [hZt, Matrix.mul_assoc (Aᵀ * A) (Bᵀ * Aᵀ) A, Matrix.mul_assoc Bᵀ Aᵀ A]
  have hz : (A * B * (Aᵀ * A) - A)ᵀ * (A * B * (Aᵀ * A) - A) = 0 := by
    rw [Matrix.transpose_sub, Matrix.sub_mul, Matrix.mul_sub, Matrix.mul_sub,
      e3, e4, q, sub_self, sub_self, sub_zero]
  exact sub_eq_zero.1 (eq_zero_of_transpose_mul_self _ hz)

/-- The deflation operator `1 - A·B·Aᵀ` annihilates `A` whenever `B`
satisfies the first Penrose axiom for `Aᵀ·A`. -/
lemma deflator_annihilates {m k : ℕ} (A : Matrix (Fin m) (Fin k) ℝ)
    (B : Matrix (Fin k) (Fin k) ℝ)
    (h1 : Aᵀ * A * B * (Aᵀ * A) = Aᵀ * A) :
    (1 - A * B * Aᵀ) * A = 0 := by
  rw [Matrix.sub_mul, Matrix.one_mul, Matrix.mul_assoc (A * B) Aᵀ A,
    penrose_aux A B h1, sub_self]

/-- The deflation operator is symmetric whenever `B` satisfies the
first Penrose axiom for `Aᵀ·A`. -/
lemma deflator_symm {m k : ℕ} (A : Matrix (Fin m) (Fin k) ℝ)
    (B : Matrix (Fin k) (Fin k) ℝ)
    (h1 : Aᵀ * A * B * (Aᵀ * A) = Aᵀ * A) :
    (1 - A * B * Aᵀ)ᵀ = 1 - A * B * Aᵀ := by
  have habm := penrose_aux A B h1
  have hSt : (A * B * Aᵀ)ᵀ = A * Bᵀ * Aᵀ := by
    rw [Matrix.transpose_mul (A * B) Aᵀ, Matrix.transpose_transpose,
      Matrix.transpose_mul A B, ← Matrix.mul_assoc]
  have hTt : (A * Bᵀ * Aᵀ)ᵀ = A * B * Aᵀ := by
    rw [Matrix.transpose_mul (A * Bᵀ) Aᵀ, Matrix.transpose_transpose,
      Matrix.transpose_mul A Bᵀ, Matrix.transpose_transpose, ← Matrix.mul_assoc]
  have hST : (A * B * Aᵀ) * (A * Bᵀ * Aᵀ) = A * Bᵀ * Aᵀ := by
    calc (A * B * Aᵀ) * (A * Bᵀ * Aᵀ)
        = (A * B * Aᵀ) * (A * (Bᵀ * Aᵀ)) := by rw [Matrix.mul_assoc A Bᵀ Aᵀ]
      _ = (A * B) * (Aᵀ * (A * (Bᵀ * Aᵀ))) := by
          rw [Matrix.mul_assoc (A * B) Aᵀ (A * (Bᵀ * Aᵀ))]
      _ = (A * B) * ((Aᵀ * A) * (Bᵀ * Aᵀ)) := by
          rw [← Matrix.mul_assoc Aᵀ A (Bᵀ * Aᵀ)]
      _ = (A * B * (Aᵀ * A)) * (Bᵀ * Aᵀ) := by
          rw [← Matrix.mul_assoc (A * B) (Aᵀ * A) (Bᵀ * Aᵀ)]
      _ = A * (Bᵀ * Aᵀ) := by rw [habm]
      _ = A * Bᵀ * Aᵀ := by rw [← Matrix.mul_assoc]
  have hsym : A * Bᵀ * Aᵀ = A * B * Aᵀ := by
    calc A * Bᵀ * Aᵀ
        = (A * B * Aᵀ) * (A * Bᵀ * Aᵀ) := hST.symm
      _ = (((A * B * Aᵀ) * (A * Bᵀ * Aᵀ))ᵀ)ᵀ := by rw [Matrix.transpose_transpose]
      _ = ((A * Bᵀ * Aᵀ)ᵀ * (A * B * Aᵀ)ᵀ)ᵀ := by
          rw [Matrix.transpose_mul (A * B * Aᵀ) (A * Bᵀ * Aᵀ)]
      _ = ((A * B * Aᵀ) * (A * Bᵀ * Aᵀ))ᵀ := by rw [hTt, hSt]
      _ = (A * Bᵀ * Aᵀ)ᵀ := by rw [hST]
      _ = A * B * Aᵀ := hTt
  rw [Matrix.transpose_sub, Matrix.transpose_one, hSt, hsym]

/-- The deflation operator is idempotent whenever `B` satisfies the
first Penrose axiom for `Aᵀ·A`. -/
lemma deflator_idem {m k : ℕ} (A : Matrix (Fin m) (Fin k) ℝ)
    (B : Matrix (Fin k) (Fin k) ℝ)
    (h1 : Aᵀ * A * B * (Aᵀ * A) = Aᵀ * A) :
    (1 - A * B * Aᵀ) * (1 - A * B * Aᵀ) = 1 - A * B * Aᵀ := by
  have hSS : (A * B * Aᵀ) * (A * B * Aᵀ) = A * B * Aᵀ := by
    calc (A * B * Aᵀ) * (A * B * Aᵀ)
        = (A * B * Aᵀ) * (A * (B * Aᵀ)) := by rw [Matrix.mul_assoc A B Aᵀ]
      _ = (A * B) * (Aᵀ * (A * (B * Aᵀ))) := by
          rw [Matrix.mul_assoc (A * B) Aᵀ (A * (B * Aᵀ))]
      _ = (A * B) * ((Aᵀ * A) * (B * Aᵀ)) := by
          rw [← Matrix.mul_assoc Aᵀ A (B * Aᵀ)]
      _ = (A * B * (Aᵀ * A)) * (B * Aᵀ) := by
          rw [← Matrix.mul_assoc (A * B) (Aᵀ * A) (B * Aᵀ)]
      _ = A * (B * Aᵀ) := by rw [penrose_aux A B h1]
      _ = A * B * Aᵀ := by rw [← Matrix.mul_assoc]
  rw [Matrix.mul_sub, Matrix.mul_one, Matrix.sub_mul, Matrix.one_mul, hSS,
    sub_self, sub_zero]

/-! ### Claim C6 -/

/-- Claim C6: for every matrix `A` of topography columns, the projector
`P = I - A·(Aᵀ·A)⁺·Aᵀ` built by `_compute_proj` with a Moore-Penrose
pseudoinverse (the four Penrose axioms are the hypotheses on the `pinv`
oracle, with no invertibility assumption on `Aᵀ·A`) is symmetric,
idempotent, and annihilates the columns it was built from:
`P·A = 0`. -/
theorem c6_projector_properties {m k : ℕ} (A : Matrix (Fin m) (Fin k) ℝ)
    (pinv : Matrix (Fin k) (Fin k) ℝ → Matrix (Fin k) (Fin k) ℝ)
    (h1 : Aᵀ * A * pinv (Aᵀ * A) * (Aᵀ * A) = Aᵀ * A)
    (h2 : pinv (Aᵀ * A) * (Aᵀ * A) * pinv (Aᵀ * A) = pinv (Aᵀ * A))
    (h3 : (Aᵀ * A * pinv (Aᵀ * A))ᵀ = Aᵀ * A * pinv (Aᵀ * A))
    (h4 : (pinv (Aᵀ * A) * (Aᵀ * A))ᵀ = pinv (Aᵀ * A) * (Aᵀ * A)) :
    (computeProj pinv A)ᵀ = computeProj pinv A ∧
      computeProj pinv A * computeProj pinv A = computeProj pinv A ∧
      computeProj pinv A * A = 0 :=
  ⟨deflator_symm A (pinv (Aᵀ * A)) h1, deflator_idem A (pinv (Aᵀ * A)) h1,
    deflator_annihilates A (pinv (Aᵀ * A)) h1⟩

/-- Witness for C6 at a concrete rank-deficient input: `A = [[1,1],[0,0]]`
has the singular Gram matrix `Aᵀ·A = [[1,1],[1,1]]`, whose Moore-Penrose
pseudoinverse is the constant matrix with entries `1/4`. -/
theorem c6_projector_properties_witness :
    (computeProj (fun _ => !![(1:ℝ)/4, 1/4; 1/4, 1/4]) !![(1:ℝ), 1; 0, 0])ᵀ =
        computeProj (fun _ => !![(1:ℝ)/4, 1/4; 1/4, 1/4]) !![(1:ℝ), 1; 0, 0] ∧
      computeProj (fun _ => !![(1:ℝ)/4, 1/4; 1/4, 1/4]) !![(1:ℝ), 1; 0, 0] *
          computeProj (fun _ => !![(1:ℝ)/4, 1/4; 1/4, 1/4]) !![(1:ℝ), 1; 0, 0] =
        computeProj (fun _ => !![(1:ℝ)/4, 1/4; 1/4, 1/4]) !![(1:ℝ), 1; 0, 0] ∧
      computeProj (fun _ => !![(1:ℝ)/4, 1/4; 1/4, 1/4]) !![(1:ℝ), 1; 0, 0] *
          !![(1:ℝ), 1; 0, 0] = 0 := by
  refine c6_projector_properties !![(1:ℝ), 1; 0, 0]
    (fun _ => !![(1:ℝ)/4, 1/4; 1/4, 1/4]) ?_ ?_ ?_ ?_ <;>
    · ext i j
      fin_cases i <;> fin_cases j <;>
        simp only [Matrix.mul_apply, Matrix.transpose_apply, Fin.sum_univ_two,
          Matrix.cons_val', Matrix.cons_val_zero, Matrix.cons_val_one,
          Matrix.head_cons, Matrix.head_fin_const, Matrix.empty_val',
          Matrix.cons_val_fin_one, Matrix.of_apply] <;>
        norm_num

/-! ### Claim C2 -/

/-- Claim C2: for a 3-column candidate block `Gk` and subspace basis `Φ`,
`_compute_subcorr` returns `sqrt` of the largest eigenvalue of
`M = Ugᵀ·Φ·Φᵀ·Ug` (with `Ug` the orthonormal factor of a reduced QR
factorization of `Gk`, witnessed by `R` and `hUg`), and as orientation a
unit-norm eigenvector of `M` for that eigenvalue.  The `eigh` oracle
contract is: `M·vecs = vecs·diag(vals)`, orthonormal `vecs`, ascending
`vals`.  The conclusions: the returned value is `sqrt (vals 2)`, the
returned orientation is an eigenvector of `M` with eigenvalue `vals 2`
and unit norm, and every eigenvalue of `M` is at most `vals 2`. -/
theorem c2_subcorr_engine {m r : ℕ}
    (qrQ : Matrix (Fin m) (Fin 3) ℝ → Matrix (Fin m) (Fin 3) ℝ)
    (eigh : Matrix (Fin 3) (Fin 3) ℝ → (Fin 3 → ℝ) × Matrix (Fin 3) (Fin 3) ℝ)
    (G : Matrix (Fin m) (Fin 3) ℝ) (phi : Matrix (Fin m) (Fin r) ℝ)
    (Ug : Matrix (Fin m) (Fin 3) ℝ) (hUgdef : qrQ G = Ug)
    (R : Matrix (Fin 3) (Fin 3) ℝ) (hQR : G = Ug * R)
    (hUg : Ugᵀ * Ug = 1)
    (vals : Fin 3 → ℝ) (vecs : Matrix (Fin 3) (Fin 3) ℝ)
    (heig : eigh ((Ugᵀ * phi) * (phiᵀ * Ug)) = (vals, vecs))
    (hM : ((Ugᵀ * phi) * (phiᵀ * Ug)) * vecs = vecs * Matrix.diagonal vals)
    (horth : vecsᵀ * vecs = 1)
    (hasc : vals 0 ≤ vals 1 ∧ vals 1 ≤ vals 2) :
    (computeSubcorr3 qrQ eigh G phi).1 = Real.sqrt (vals 2) ∧
      ((Ugᵀ * phi) * (phiᵀ * Ug)) *ᵥ (computeSubcorr3 qrQ eigh G phi).2 =
        vals 2 • (computeSubcorr3 qrQ eigh G phi).2 ∧
      (∀ (mu : ℝ) (x : Fin 3 → ℝ), x ≠ 0 →
        ((Ugᵀ * phi) * (phiᵀ * Ug)) *ᵥ x = mu • x → mu ≤ vals 2) ∧
      ∑ i, ((computeSubcorr3 qrQ eigh G phi).2 i) ^ 2 = 1 := by
  have hval : (computeSubcorr3 qrQ eigh G phi).1 = Real.sqrt (vals 2) := by
    simp only [computeSubcorr3, hUgdef, heig]
  have hvec : (computeSubcorr3 qrQ eigh G phi).2 = fun i => vecs i 2 := by
    simp only [computeSubcorr3, hUgdef, heig]
  refine ⟨hval, ?_, ?_, ?_⟩
  · rw [hvec]
    funext i
    have h := congrFun (congrFun hM i) 2
    rw [Matrix.mul_apply, Matrix.mul_apply] at h
    have hdg : ∑ k, vecs i k * Matrix.diagonal vals k 2 = vecs i 2 * vals 2 := by
      rw [Fin.sum_univ_three]
      simp [Matrix.diagonal_apply]
    rw [hdg] at h
    simpa [Matrix.mulVec, Matrix.dotProduct, mul_comm] using h
  · intro mu x hx hMx
    have hVV : vecs * vecsᵀ = 1 := Matrix.mul_eq_one_comm.1 horth
    have hxc : vecs *ᵥ (vecsᵀ *ᵥ x) = x := by
      rw [Matrix.mulVec_mulVec, hVV, Matrix.one_mulVec]
    have hcne : vecsᵀ *ᵥ x ≠ 0 := by
      intro h
      exact hx (by rw [← hxc, h, Matrix.mulVec_zero])
    have h5 : vecs *ᵥ (Matrix.diagonal vals *ᵥ (vecsᵀ *ᵥ x)) =
        vecs *ᵥ (mu • (vecsᵀ *ᵥ x)) := by
      rw [Matrix.mulVec_mulVec, ← hM, ← Matrix.mulVec_mulVec, hxc, hMx,
        Matrix.mulVec_smul, hxc]
    have hinj : ∀ a b : Fin 3 → ℝ, vecs *ᵥ a = vecs *ᵥ b → a = b := by
      intro a b hab
      have h6 := congrArg (fun v => vecsᵀ *ᵥ v) hab
      simpa only [Matrix.mulVec_mulVec, horth, Matrix.one_mulVec] using h6
    have hdc := hinj _ _ h5
    obtain ⟨i, hi⟩ := Function.ne_iff.1 hcne
    have h7 : vals i * (vecsᵀ *ᵥ x) i = mu * (vecsᵀ *ᵥ x) i := by
      have h8 := congrFun hdc i
      simpa [Matrix.mulVec_diagonal] using h8
    have h9 : vals i = mu := mul_right_cancel₀ hi h7
    rw [← h9]
    fin_cases i
    · exact le_trans hasc.1 hasc.2
    · exact hasc.2
    · exact le_refl _
  · rw [hvec]
    have h := congrFun (congrFun horth 2) 2
    rw [Matrix.mul_apply] at h
    simp only [Matrix.transpose_apply, Matrix.one_apply_eq] at h
    calc ∑ i, vecs i 2 ^ 2 = ∑ i, vecs i 2 * vecs i 2 := by
          refine Finset.sum_congr rfl fun i _ => ?_
          rw [pow_two]
      _ = 1 := h

/-- Witness for C2: `G = Ug = I₃` (so `R = I₃` is the QR factor),
`Φ = e₀` a single basis column.  Then `M = e₀·e₀ᵀ = diag(1,0,0)`; the
`eigh` oracle returns the ascending eigenvalues `(0,0,1)` with
eigenvector columns `e₁, e₂, e₀`. -/
theorem c2_subcorr_engine_witness :
    (computeSubcorr3 qrQW eighW GW phiW).1 = Real.sqrt (valsW 2) ∧
    ((GWᵀ * phiW) * (phiWᵀ * GW)) *ᵥ (computeSubcorr3 qrQW eighW GW phiW).2 =
      valsW 2 • (computeSubcorr3 qrQW eighW GW phiW).2 ∧
    (∀ (mu : ℝ) (x : Fin 3 → ℝ), x ≠ 0 →
      ((GWᵀ * phiW) * (phiWᵀ * GW)) *ᵥ x = mu • x → mu ≤ valsW 2) ∧
    ∑ i, ((computeSubcorr3 qrQW eighW GW phiW).2 i) ^ 2 = 1 := by
  refine c2_subcorr_engine qrQW eighW GW phiW GW rfl GW (by simp [GW]) ?_
    valsW vecsW rfl ?_ ?_ ?_
  · simp [GW]
  · ext i j
    fin_cases i <;> fin_cases j <;>
      simp [GW, phiW, vecsW, valsW, Matrix.mul_apply, Matrix.transpose_apply,
        Fin.sum_univ_three, Fin.sum_univ_one, Matrix.diagonal_apply,
        Matrix.one_apply, Matrix.of_apply, Matrix.cons_val', Matrix.cons_val_zero,
        Matrix.cons_val_one, Matrix.cons_val_two, Matrix.head_cons,
        Matrix.tail_cons, Matrix.head_fin_const, Matrix.empty_val',
        Matrix.cons_val_fin_one, Matrix.vecHead, Matrix.vecTail]
  · ext i j
    fin_cases i <;> fin_cases j <;>
      simp [vecsW, Matrix.mul_apply, Matrix.transpose_apply,
        Fin.sum_univ_three, Matrix.one_apply, Matrix.of_apply, Matrix.cons_val',
        Matrix.cons_val_zero, Matrix.cons_val_one, Matrix.cons_val_two,
        Matrix.head_cons, Matrix.tail_cons, Matrix.head_fin_const,
        Matrix.empty_val', Matrix.cons_val_fin_one, Matrix.vecHead,
        Matrix.vecTail]
  · constructor <;> simp [valsW]

/-! ### Claim C8 -/

/-- Claim C8: every subspace correlation returned by `_compute_subcorr`
during the loop lies in `[0, 1]`.  The candidate block is arbitrary (in
particular any block of a deflated leadfield) and the basis is the
deflated `Q·Φ`, where `Q` is any symmetric idempotent projector (the
identity in round 0, the `_compute_proj` output later) and `Φ` has
orthonormal columns (the eigenvector slice of the data covariance).
Width-1 and width-3 branches are covered; for width 3 the `qr` oracle
returns an orthonormal factor and the `eigh` oracle satisfies its
spectral contract. -/
theorem c8_subcorr_in_unit_interval :
    (∀ (m r : ℕ) (Gk : Matrix (Fin m) (Fin 1) ℝ) (phi : Matrix (Fin m) (Fin r) ℝ)
      (Q : Matrix (Fin m) (Fin m) ℝ), Qᵀ = Q → Q * Q = Q → phiᵀ * phi = 1 →
      0 ≤ (computeSubcorr1 Gk (Q * phi)).1 ∧ (computeSubcorr1 Gk (Q * phi)).1 ≤ 1) ∧
    (∀ (m r : ℕ) (qrQ : Matrix (Fin m) (Fin 3) ℝ → Matrix (Fin m) (Fin 3) ℝ)
      (eigh : Matrix (Fin 3) (Fin 3) ℝ → (Fin 3 → ℝ) × Matrix (Fin 3) (Fin 3) ℝ)
      (G : Matrix (Fin m) (Fin 3) ℝ) (phi : Matrix (Fin m) (Fin r) ℝ)
      (Q : Matrix (Fin m) (Fin m) ℝ), Qᵀ = Q → Q * Q = Q → phiᵀ * phi = 1 →
      (qrQ G)ᵀ * qrQ G = 1 →
      ((qrQ G)ᵀ * (Q * phi)) * ((Q * phi)ᵀ * qrQ G) *
          (eigh (((qrQ G)ᵀ * (Q * phi)) * ((Q * phi)ᵀ * qrQ G))).2 =
        (eigh (((qrQ G)ᵀ * (Q * phi)) * ((Q * phi)ᵀ * qrQ G))).2 *
          Matrix.diagonal (eigh (((qrQ G)ᵀ * (Q * phi)) * ((Q * phi)ᵀ * qrQ G))).1 →
      ((eigh (((qrQ G)ᵀ * (Q * phi)) * ((Q * phi)ᵀ * qrQ G))).2)ᵀ *
          (eigh (((qrQ G)ᵀ * (Q * phi)) * ((Q * phi)ᵀ * qrQ G))).2 = 1 →
      0 ≤ (computeSubcorr3 qrQ eigh G (Q * phi)).1 ∧
        (computeSubcorr3 qrQ eigh G (Q * phi)).1 ≤ 1) := by
  constructor
  · intro m r Gk phi Q hQs hQi hphi
    have hSs : (phi * phiᵀ)ᵀ = phi * phiᵀ := by
      rw [Matrix.transpose_mul, Matrix.transpose_transpose]
    have hSi : (phi * phiᵀ) * (phi * phiᵀ) = phi * phiᵀ := by
      rw [Matrix.mul_assoc, ← Matrix.mul_assoc phiᵀ phi phiᵀ, hphi, Matrix.one_mul]
    have hnum : (Gkᵀ * (Q * phi)) * ((Q * phi)ᵀ * Gk) =
        (Q * Gk)ᵀ * ((phi * phiᵀ) * (Q * Gk)) := by
      simp only [Matrix.transpose_mul, hQs, Matrix.mul_assoc]
    have hq1 := sym_idem_quad (phi * phiᵀ) hSs hSi (Q * Gk)
    have hmid : (Q * Gk)ᵀ * (Q * Gk) = Gkᵀ * (Q * Gk) := by
      rw [Matrix.transpose_mul, hQs, Matrix.mul_assoc, ← Matrix.mul_assoc Q Q Gk, hQi]
    have hq2 := sym_idem_quad Q hQs hQi Gk
    have hnum0 : 0 ≤ ((Gkᵀ * (Q * phi)) * ((Q * phi)ᵀ * Gk)) 0 0 := by
      rw [hnum]; exact hq1.1
    have hnumle : ((Gkᵀ * (Q * phi)) * ((Q * phi)ᵀ * Gk)) 0 0 ≤ (Gkᵀ * Gk) 0 0 := by
      rw [hnum]
      refine le_trans hq1.2 ?_
      rw [hmid]
      exact hq2.2
    have hratio : (((Gkᵀ * (Q * phi)) * ((Q * phi)ᵀ * Gk)) 0 0) / ((Gkᵀ * Gk) 0 0) ≤ 1 := by
      rcases eq_or_lt_of_le (entry_mul_self_nonneg Gk) with hd | hd
      · rw [← hd, div_zero]; exact zero_le_one
      · exact (div_le_one hd).2 hnumle
    constructor
    · exact Real.sqrt_nonneg _
    · calc (computeSubcorr1 Gk (Q * phi)).1
          = Real.sqrt ((((Gkᵀ * (Q * phi)) * ((Q * phi)ᵀ * Gk)) 0 0) /
              ((Gkᵀ * Gk) 0 0)) := rfl
        _ ≤ Real.sqrt 1 := Real.sqrt_le_sqrt hratio
        _ = 1 := Real.sqrt_one
  · intro m r qrQ eigh G phi Q hQs hQi hphi hUg hM horth
    refine ⟨Real.sqrt_nonneg _, ?_⟩
    set Ug := qrQ G with hUgd
    set M := (Ugᵀ * (Q * phi)) * ((Q * phi)ᵀ * Ug) with hMd
    set vals := (eigh M).1 with hvd
    set vecs := (eigh M).2 with hved
    set vcol : Matrix (Fin 3) (Fin 1) ℝ := Matrix.of fun i _ => vecs i 2 with hvcd
    have hMv : M * vcol = vals 2 • vcol := by
      ext i j
      have h := congrFun (congrFun hM i) 2
      rw [Matrix.mul_apply, Matrix.mul_apply] at h
      have hdg : ∑ k, vecs i k * Matrix.diagonal vals k 2 = vecs i 2 * vals 2 := by
        rw [Fin.sum_univ_three]
        simp [Matrix.diagonal_apply]
      rw [hdg] at h
      rw [Matrix.mul_apply]
      simp only [hvcd, Matrix.smul_apply, Matrix.of_apply, smul_eq_mul]
      rw [mul_comm (vals 2) (vecs i 2), ← h]
    have hv1 : (vcolᵀ * vcol) 0 0 = 1 := by
      have h := congrFun (congrFun horth 2) 2
      rw [Matrix.mul_apply] at h
      rw [Matrix.mul_apply]
      simp only [Matrix.transpose_apply, Matrix.one_apply_eq] at h
      simpa [hvcd, Matrix.transpose_apply] using h
    have hval2 : (vcolᵀ * (M * vcol)) 0 0 = vals 2 := by
      rw [hMv, Matrix.mul_smul, Matrix.smul_apply, smul_eq_mul, hv1, mul_one]
    have hexp : vcolᵀ * (M * vcol) =
        (Q * (Ug * vcol))ᵀ * ((phi * phiᵀ) * (Q * (Ug * vcol))) := by
      rw [hMd]
      simp only [Matrix.transpose_mul, hQs, Matrix.mul_assoc]
    have hSs : (phi * phiᵀ)ᵀ = phi * phiᵀ := by
      rw [Matrix.transpose_mul, Matrix.transpose_transpose]
    have hSi : (phi * phiᵀ) * (phi * phiᵀ) = phi * phiᵀ := by
      rw [Matrix.mul_assoc, ← Matrix.mul_assoc phiᵀ phi phiᵀ, hphi, Matrix.one_mul]
    have hq1 := sym_idem_quad (phi * phiᵀ) hSs hSi (Q * (Ug * vcol))
    have hmid : (Q * (Ug * vcol))ᵀ * (Q * (Ug * vcol)) =
        (Ug * vcol)ᵀ * (Q * (Ug * vcol)) := by
      rw [Matrix.transpose_mul, hQs, Matrix.mul_assoc,
        ← Matrix.mul_assoc Q Q (Ug * vcol), hQi]
    have hq2 := sym_idem_quad Q hQs hQi (Ug * vcol)
    have hUnorm : ((Ug * vcol)ᵀ * (Ug * vcol)) 0 0 = 1 := by
      rw [Matrix.transpose_mul, Matrix.mul_assoc, ← Matrix.mul_assoc Ugᵀ Ug vcol,
        hUg, Matrix.one_mul, hv1]
    have hle : vals 2 ≤ 1 := by
      rw [← hval2, hexp]
      refine le_trans hq1.2 ?_
      rw [hmid]
      refine le_trans hq2.2 ?_
      rw [hUnorm]
    have : (computeSubcorr3 qrQ eigh G (Q * phi)).1 = Real.sqrt (vals 2) := rfl
    rw [this]
    calc Real.sqrt (vals 2) ≤ Real.sqrt 1 := Real.sqrt_le_sqrt hle
      _ = 1 := Real.sqrt_one

/-- Witness for C8: both branches evaluated at concrete inputs — the
width-1 branch at `Gk = Φ = [[1]]`, `Q = I`, and the width-3 branch at
the C2 configuration (`G = I₃`, `Φ = e₀`, `Q = I₃`) with the concrete
`qr` and `eigh` oracle outputs. -/
theorem c8_subcorr_in_unit_interval_witness :
    (0 ≤ (computeSubcorr1 !![(1:ℝ)] ((1 : Matrix (Fin 1) (Fin 1) ℝ) * !![(1:ℝ)])).1 ∧
      (computeSubcorr1 !![(1:ℝ)] ((1 : Matrix (Fin 1) (Fin 1) ℝ) * !![(1:ℝ)])).1 ≤ 1) ∧
    (0 ≤ (computeSubcorr3 qrQW eighW GW ((1 : Matrix (Fin 3) (Fin 3) ℝ) * phiW)).1 ∧
      (computeSubcorr3 qrQW eighW GW ((1 : Matrix (Fin 3) (Fin 3) ℝ) * phiW)).1 ≤ 1) := by
  constructor
  · refine c8_subcorr_in_unit_interval.1 1 1 !![(1:ℝ)] !![(1:ℝ)] 1
      (by rw [Matrix.transpose_one]) (by rw [Matrix.mul_one]) ?_
    ext i j
    fin_cases i <;> fin_cases j <;>
      simp [Matrix.mul_apply, Matrix.transpose_apply, Fin.sum_univ_one,
        Matrix.one_apply]
  · refine c8_subcorr_in_unit_interval.2 3 1 qrQW eighW GW phiW 1
      (by rw [Matrix.transpose_one]) (by rw [Matrix.mul_one]) ?_ ?_ ?_ ?_
    · ext i j
      fin_cases i <;> fin_cases j <;>
        simp [phiW, Matrix.mul_apply, Matrix.transpose_apply, Fin.sum_univ_three,
          Matrix.one_apply, Matrix.of_apply]
    · ext i j
      fin_cases i <;> fin_cases j <;>
        simp [qrQW, GW, Matrix.mul_apply, Matrix.transpose_apply,
          Fin.sum_univ_three, Matrix.one_apply]
    · ext i j
      fin_cases i <;> fin_cases j <;>
        simp [qrQW, GW, phiW, eighW, vecsW, valsW, Matrix.mul_apply,
          Matrix.transpose_apply, Fin.sum_univ_three, Fin.sum_univ_one,
          Matrix.diagonal_apply, Matrix.one_apply, Matrix.of_apply,
          Matrix.cons_val', Matrix.cons_val_zero, Matrix.cons_val_one,
          Matrix.cons_val_two, Matrix.head_cons, Matrix.tail_cons,
          Matrix.head_fin_const, Matrix.empty_val', Matrix.cons_val_fin_one,
          Matrix.vecHead, Matrix.vecTail]
    · ext i j
      fin_cases i <;> fin_cases j <;>
        simp [eighW, vecsW, Matrix.mul_apply, Matrix.transpose_apply,
          Fin.sum_univ_three, Matrix.one_apply, Matrix.of_apply,
          Matrix.cons_val', Matrix.cons_val_zero, Matrix.cons_val_one,
          Matrix.cons_val_two, Matrix.head_cons, Matrix.tail_cons,
          Matrix.head_fin_const, Matrix.empty_val', Matrix.cons_val_fin_one,
          Matrix.vecHead, Matrix.vecTail]

/-! ### SEARCH-scan lemmas -/

/-- The empty scan keeps the initial state. -/
lemma searchRound_zero {m : ℕ} (cand : ℕ → ℝ × (Fin m → ℝ)) :
    searchRound 0 cand = ⟨-1, -1, fun _ => 0⟩ := rfl

/-- Unfolding one step of the scan at the last candidate. -/
lemma searchRound_succ {m : ℕ} (nc : ℕ) (cand : ℕ → ℝ × (Fin m → ℝ)) :
    searchRound (nc + 1) cand =
      if (searchRound nc cand).val < (cand nc).1 then
        ⟨(cand nc).1, (nc : ℤ), (cand nc).2⟩
      else searchRound nc cand := by
  unfold searchRound
  rw [List.range_succ, List.foldl_append, List.foldl_cons, List.foldl_nil]

/-- Characterisation of the scan when every candidate beats the initial
`-1`: the result is the data of the first candidate attaining the
maximum. -/
lemma searchRound_spec {m : ℕ} (nc : ℕ) (cand : ℕ → ℝ × (Fin m → ℝ))
    (hnc : 0 < nc) (hgt : ∀ i, i < nc → -1 < (cand i).1) :
    ∃ w : ℕ, (searchRound nc cand).idx = (w : ℤ) ∧ w < nc ∧
      (searchRound nc cand).val = (cand w).1 ∧
      (searchRound nc cand).acol = (cand w).2 ∧
      (∀ j, j < nc → (cand j).1 ≤ (cand w).1) ∧
      (∀ j, j < w → (cand j).1 < (cand w).1) := by
  induction nc with
  | zero => exact absurd hnc (lt_irrefl 0)
  | succ nc ih =>
    rcases Nat.eq_zero_or_pos nc with hz | hpos
    · subst hz
      refine ⟨0, ?_⟩
      rw [searchRound_succ, searchRound_zero]
      have h0 : (-1 : ℝ) < (cand 0).1 := hgt 0 (by omega)
      rw [if_pos h0]
      exact ⟨rfl, by omega, rfl, rfl, by
        intro j hj
        interval_cases j
        exact le_refl _, by intro j hj; omega⟩
    · obtain ⟨w, hidx, hwlt, hval, hacol, hmax, hstrict⟩ :=
        ih hpos (fun i hi => hgt i (by omega))
      rw [searchRound_succ]
      by_cases hcmp : (searchRound nc cand).val < (cand nc).1
      · refine ⟨nc, ?_⟩
        rw [if_pos hcmp]
        rw [hval] at hcmp
        refine ⟨rfl, by omega, rfl, rfl, ?_, ?_⟩
        · intro j hj
          rcases Nat.lt_succ_iff_lt_or_eq.1 hj with hj' | hj'
          · exact le_of_lt (lt_of_le_of_lt (hmax j hj') hcmp)
          · subst hj'; exact le_refl _
        · intro j hj
          exact lt_of_le_of_lt (hmax j hj) hcmp
      · refine ⟨w, ?_⟩
        rw [if_neg hcmp]
        rw [hval, not_lt] at hcmp
        refine ⟨hidx, by omega, hval, hacol, ?_, hstrict⟩
        intro j hj
        rcases Nat.lt_succ_iff_lt_or_eq.1 hj with hj' | hj'
        · exact hmax j hj'
        · subst hj'; exact hcmp

/-! ### Claim C7 -/

/-- Claim C7: in every SEARCH scan, a later candidate replaces the
current best only on strictly greater correlation, so the winner of
`searchRound` is the first-enumerated candidate attaining the maximal
correlation: its index `w` attains the maximum, every earlier candidate
is strictly below it, and among exact ties the lower index wins
(`w ≤ j` whenever candidate `j` also attains the maximum).  The
hypothesis `-1 < subcorr` holds for every real subcorr value since they
are square roots. -/
theorem c7_tie_break {m : ℕ} (nc : ℕ) (cand : ℕ → ℝ × (Fin m → ℝ))
    (hnc : 0 < nc) (hgt : ∀ i, i < nc → -1 < (cand i).1) :
    ∃ w : ℕ, (searchRound nc cand).idx = (w : ℤ) ∧ w < nc ∧
      (∀ j, j < nc → (cand j).1 ≤ (cand w).1) ∧
      (∀ j, j < w → (cand j).1 < (cand w).1) ∧
      (∀ j, j < nc → (cand j).1 = (cand w).1 → w ≤ j) := by
  obtain ⟨w, hidx, hwlt, _, _, hmax, hstrict⟩ := searchRound_spec nc cand hnc hgt
  refine ⟨w, hidx, hwlt, hmax, hstrict, ?_⟩
  intro j _ hj
  by_contra hlt
  rw [not_le] at hlt
  exact absurd hj (ne_of_lt (hstrict j hlt))

/-- Witness for C7 at the engineered exact tie: two candidates with
equal correlation `1`; the winner is candidate `0`. -/
theorem c7_tie_break_witness :
    (searchRound 2 candTie).idx = ((0 : ℕ) : ℤ) := by
  obtain ⟨w, hidx, hwlt, hmax, hstrict, hle⟩ :=
    c7_tie_break 2 candTie (by norm_num) (by intro i _; norm_num [candTie])
  have hw : w = 0 := by
    by_contra hne
    have h0 : 0 < w := Nat.pos_of_ne_zero fun h => hne h
    have := hstrict 0 h0
    simp [candTie] at this
  rw [hidx, hw]

/-! ### Loop-state lemmas -/

/-- The loop starts from the un-deflated state. -/
lemma loopState_zero {m nc r : ℕ} (G : Matrix (Fin m) (Fin nc) ℝ)
    (phi : Matrix (Fin m) (Fin r) ℝ)
    (pinvO : (k : ℕ) → Matrix (Fin k) (Fin k) ℝ → Matrix (Fin k) (Fin k) ℝ) :
    loopState G phi pinvO 0 = ⟨[], [], G, phi⟩ := rfl

/-- One more round is one application of `roundStep`. -/
lemma loopState_succ {m nc r : ℕ} (G : Matrix (Fin m) (Fin nc) ℝ)
    (phi : Matrix (Fin m) (Fin r) ℝ)
    (pinvO : (k : ℕ) → Matrix (Fin k) (Fin k) ℝ → Matrix (Fin k) (Fin k) ℝ)
    (k : ℕ) :
    loopState G phi pinvO (k + 1) = roundStep G phi pinvO (loopState G phi pinvO k) :=
  rfl

/-- The `active_set` slots written by one round. -/
lemma roundStep_active {m nc r : ℕ} (G : Matrix (Fin m) (Fin nc) ℝ)
    (phi : Matrix (Fin m) (Fin r) ℝ)
    (pinvO : (k : ℕ) → Matrix (Fin k) (Fin k) ℝ → Matrix (Fin k) (Fin k) ℝ)
    (st : LoopState m nc r) :
    (roundStep G phi pinvO st).active =
      st.active ++ [(searchRound nc (roundEval st.Gp st.phip)).idx] := rfl

/-- The `A` columns written by one round. -/
lemma roundStep_cols {m nc r : ℕ} (G : Matrix (Fin m) (Fin nc) ℝ)
    (phi : Matrix (Fin m) (Fin r) ℝ)
    (pinvO : (k : ℕ) → Matrix (Fin k) (Fin k) ℝ → Matrix (Fin k) (Fin k) ℝ)
    (st : LoopState m nc r) :
    (roundStep G phi pinvO st).cols =
      st.cols ++ [(searchRound nc (roundEval st.Gp st.phip)).acol] := rfl

/-- Exactly one `active_set` slot is written per round. -/
lemma loopState_active_length {m nc r : ℕ} (G : Matrix (Fin m) (Fin nc) ℝ)
    (phi : Matrix (Fin m) (Fin r) ℝ)
    (pinvO : (k : ℕ) → Matrix (Fin k) (Fin k) ℝ → Matrix (Fin k) (Fin k) ℝ) :
    ∀ n, (loopState G phi pinvO n).active.length = n := by
  intro n
  induction n with
  | zero => rfl
  | succ n ih =>
    rw [loopState_succ, roundStep_active, List.length_append, ih]
    rfl

/-- Exactly one `A` column is written per round. -/
lemma loopState_cols_length {m nc r : ℕ} (G : Matrix (Fin m) (Fin nc) ℝ)
    (phi : Matrix (Fin m) (Fin r) ℝ)
    (pinvO : (k : ℕ) → Matrix (Fin k) (Fin k) ℝ → Matrix (Fin k) (Fin k) ℝ) :
    ∀ n, (loopState G phi pinvO n).cols.length = n := by
  intro n
  induction n with
  | zero => rfl
  | succ n ih =>
    rw [loopState_succ, roundStep_cols, List.length_append, ih]
    rfl

/-- The column recorded at round `k` is the winner's column of that
round's SEARCH scan over the *deflated* working leadfield. -/
lemma loopState_cols_getD {m nc r : ℕ} (G : Matrix (Fin m) (Fin nc) ℝ)
    (phi : Matrix (Fin m) (Fin r) ℝ)
    (pinvO : (k : ℕ) → Matrix (Fin k) (Fin k) ℝ → Matrix (Fin k) (Fin k) ℝ)
    (n k : ℕ) (hk : k < n) :
    (loopState G phi pinvO n).cols.getD k (fun _ => 0) =
      (searchRound nc (roundEval (loopState G phi pinvO k).Gp
        (loopState G phi pinvO k).phip)).acol := by
  induction n with
  | zero => omega
  | succ n ih =>
    rw [loopState_succ, roundStep_cols]
    rcases Nat.lt_succ_iff_lt_or_eq.1 hk with h | h
    · rw [List.getD_append _ _ _ _ (by rw [loopState_cols_length]; exact h)]
      exact ih h
    · subst h
      have hlen := loopState_cols_length G phi pinvO k
      rw [List.getD_append_right _ _ _ _ (by omega), hlen]
      simp

/-- The `active_set` entry recorded at round `k` is the winner index of
that round's SEARCH scan. -/
lemma loopState_active_getD {m nc r : ℕ} (G : Matrix (Fin m) (Fin nc) ℝ)
    (phi : Matrix (Fin m) (Fin r) ℝ)
    (pinvO : (k : ℕ) → Matrix (Fin k) (Fin k) ℝ → Matrix (Fin k) (Fin k) ℝ)
    (n k : ℕ) (hk : k < n) :
    (loopState G phi pinvO n).active.getD k (-1) =
      (searchRound nc (roundEval (loopState G phi pinvO k).Gp
        (loopState G phi pinvO k).phip)).idx := by
  induction n with
  | zero => omega
  | succ n ih =>
    rw [loopState_succ, roundStep_active]
    rcases Nat.lt_succ_iff_lt_or_eq.1 hk with h | h
    · rw [List.getD_append _ _ _ _ (by rw [loopState_active_length]; exact h)]
      exact ih h
    · subst h
      have hlen := loopState_active_length G phi pinvO k
      rw [List.getD_append_right _ _ _ _ (by omega), hlen]
      simp

/-- Claim C10: in the vertex re-indexing of lines 126-128, an active-set
index `i` is routed to the right hemisphere exactly when `i` is strictly
greater than the left vertex count `L = vertno[0].size`; the boundary
index `i = L` is routed to the left selection instead, where its lookup
position is `L` — one past the last valid position of the left vertex
list — so the lookup is out of bounds (`none`) rather than the first
right-hemisphere vertex. -/
theorem c10_hemisphere_split (v0 v1 : List ℕ) (act : List ℤ) :
    (∀ i : ℤ, i ∈ vertnoRightSel v0 act ↔ i ∈ act ∧ (v0.length : ℤ) < i) ∧
    ((v0.length : ℤ) ∈ act →
      (v0.length : ℤ) ∈ vertnoLeftSel v0 act ∧
      (v0.length : ℤ) ∉ vertnoRightSel v0 act ∧
      pyGet v0 (v0.length : ℤ) = none ∧
      none ∈ vertnoLeft v0 act) := by
  have hmem : ∀ i : ℤ, i ∈ vertnoRightSel v0 act ↔ i ∈ act ∧ (v0.length : ℤ) < i := by
    intro i
    unfold vertnoRightSel
    rw [List.mem_filter]
    simp
  refine ⟨hmem, fun hL => ⟨?_, ?_, ?_, ?_⟩⟩
  · unfold vertnoLeftSel
    rw [List.mem_filter]
    simp [hL]
  · rw [hmem]
    simp
  · unfold pyGet
    rw [if_pos (by positivity)]
    simp
  · unfold vertnoLeft
    rw [List.mem_map]
    refine ⟨(v0.length : ℤ), ?_, ?_⟩
    · unfold vertnoLeftSel
      rw [List.mem_filter]
      simp [hL]
    · unfold pyGet
      rw [if_pos (by positivity)]
      simp

/-- Witness for C10: left vertex list `[10, 11]` (so `L = 2`), right
vertex list `[20]`, sorted active set `[0, 2, 3]` containing the
boundary index `2`. -/
theorem c10_hemisphere_split_witness :
    ((3:ℤ) ∈ vertnoRightSel [10, 11] [0, 2, 3] ∧
      (([10, 11] : List ℕ).length : ℤ) ∈ vertnoLeftSel [10, 11] [0, 2, 3] ∧
      (([10, 11] : List ℕ).length : ℤ) ∉ vertnoRightSel [10, 11] [0, 2, 3] ∧
      pyGet [10, 11] ((([10, 11] : List ℕ).length : ℤ)) = none ∧
      none ∈ vertnoLeft [10, 11] [0, 2, 3]) := by
  have h := c10_hemisphere_split [10, 11] [20] [0, 2, 3]
  refine ⟨(h.1 3).2 (by decide), h.2 (by decide)⟩

/-! ### Concrete run evaluation (two-round, width-1, two candidates) -/

/-- The width-1 subcorr written through the Gram matrix `Φ·Φᵀ` of the
basis. -/
lemma computeSubcorr1_gram {m r : ℕ} (Gk : Matrix (Fin m) (Fin 1) ℝ)
    (phi : Matrix (Fin m) (Fin r) ℝ) :
    (computeSubcorr1 Gk phi).1 =
      Real.sqrt (((Gkᵀ * ((phi * phiᵀ) * Gk)) 0 0) / ((Gkᵀ * Gk) 0 0)) := by
  unfold computeSubcorr1
  rw [Matrix.mul_assoc Gkᵀ phi (phiᵀ * Gk), ← Matrix.mul_assoc phi phiᵀ Gk]

/-- The basis `phi2 = I` has Gram matrix `I`. -/
lemma phi2_gram : phi2 * phi2ᵀ = (1 : Matrix (Fin 2) (Fin 2) ℝ) := by
  unfold phi2
  rw [Matrix.transpose_one, Matrix.mul_one]

/-- Round-1 evaluation of candidate 0 on `G1`. -/
lemma runA_eval0 : roundEval G1 phi2 0 = (1, e0c) := by
  simp only [roundEval]
  rw [Prod.mk.injEq]
  constructor
  · rw [computeSubcorr1_gram, phi2_gram, Matrix.one_mul]
    have hd : ((colBlock G1 0)ᵀ * colBlock G1 0) 0 0 = 1 := by
      rw [Matrix.mul_apply]
      simp [colBlock, G1, Matrix.transpose_apply, Fin.sum_univ_two]
    rw [hd, div_one, Real.sqrt_one]
  · funext a
    have h2 : (computeSubcorr1 (colBlock G1 0) phi2).2 = fun _ => 1 := rfl
    rw [h2]
    fin_cases a <;> simp [colBlock, G1, e0c, Fin.sum_univ_one]

/-- Round-1 evaluation of candidate 1 on `G1`: an exact tie with
candidate 0. -/
lemma runA_eval1 : (roundEval G1 phi2 1).1 = 1 := by
  simp only [roundEval]
  rw [computeSubcorr1_gram, phi2_gram, Matrix.one_mul]
  have hd : ((colBlock G1 1)ᵀ * colBlock G1 1) 0 0 = 2 := by
    rw [Matrix.mul_apply]
    simp [colBlock, G1, Matrix.transpose_apply, Fin.sum_univ_two]
  rw [hd]
  norm_num [Real.sqrt_one]

/-- First step of the round-1 scan on `G1`. -/
lemma runA_search1a : searchRound 1 (roundEval G1 phi2) = ⟨1, 0, e0c⟩ := by
  rw [searchRound_succ, searchRound_zero, runA_eval0, if_pos (by norm_num)]
  rfl

/-- Round 1 on `G1`: the scan stops at the tie and keeps candidate 0. -/
lemma runA_search1 : searchRound 2 (roundEval G1 phi2) = ⟨1, 0, e0c⟩ := by
  rw [searchRound_succ, runA_search1a, runA_eval1, if_neg (by norm_num)]

/-- The projector built from the single recorded column `e₀`. -/
lemma runA_proj :
    computeProj (pinvId ([e0c] : List (Fin 2 → ℝ)).length) (colsMatrix [e0c]) = PD := by
  have hA : colsMatrix [e0c] =
      (e0mat : Matrix (Fin 2) (Fin ([e0c] : List (Fin 2 → ℝ)).length) ℝ) := by
    ext i j
    fin_cases i <;> fin_cases j <;> simp [colsMatrix, e0c, e0mat]
  rw [hA]
  show computeProj (pinvId 1) e0mat = PD
  unfold computeProj pinvId e0mat PD
  ext i j
  fin_cases i <;> fin_cases j <;>
    simp [Matrix.mul_apply, Matrix.transpose_apply, Fin.sum_univ_one,
      Fin.sum_univ_two, Matrix.one_apply, Matrix.sub_apply, Matrix.of_apply,
      Matrix.cons_val', Matrix.cons_val_zero, Matrix.cons_val_one,
      Matrix.head_cons, Matrix.tail_cons, Matrix.head_fin_const,
      Matrix.empty_val', Matrix.cons_val_fin_one, Matrix.vecHead,
      Matrix.vecTail, Matrix.vecMul, Matrix.dotProduct]

/-- State after round 1 on `G1`: column `e₀` recorded, candidate 0
selected, both working objects deflated by `PD`. -/
lemma runA_state1 : loopState G1 phi2 pinvId 1 = ⟨[e0c], [0], PD, PD⟩ := by
  rw [loopState_succ, loopState_zero]
  simp only [roundStep]
  rw [runA_search1]
  simp only [List.nil_append]
  have hPG : computeProj (pinvId ([e0c] : List (Fin 2 → ℝ)).length)
      (colsMatrix [e0c]) * G1 = PD := by
    rw [runA_proj]
    unfold PD G1
    ext i j
    fin_cases i <;> fin_cases j <;>
      simp [Matrix.mul_apply, Fin.sum_univ_two]
  have hPphi : computeProj (pinvId ([e0c] : List (Fin 2 → ℝ)).length)
      (colsMatrix [e0c]) * phi2 = PD := by
    rw [runA_proj]
    unfold phi2
    rw [Matrix.mul_one]
  rw [hPG, hPphi]

/-- Round-2 evaluation of candidate 0: its deflated column is zero, so
the subcorr is `sqrt(0/0) = 0` and its would-be `A` column is zero. -/
lemma runA2_eval0 : roundEval PD PD 0 = (0, zc) := by
  simp only [roundEval]
  rw [Prod.mk.injEq]
  constructor
  · rw [computeSubcorr1_gram]
    have hd : ((colBlock PD 0)ᵀ * colBlock PD 0) 0 0 = 0 := by
      rw [Matrix.mul_apply]
      simp [colBlock, PD, Matrix.transpose_apply, Fin.sum_univ_two]
    rw [hd, div_zero, Real.sqrt_zero]
  · funext a
    have h2 : (computeSubcorr1 (colBlock PD 0) PD).2 = fun _ => 1 := rfl
    rw [h2]
    fin_cases a <;> simp [colBlock, PD, zc, Fin.sum_univ_one]

/-- Round-2 evaluation of candidate 1: its deflated column `e₁` has
subcorr 1 against the deflated basis, and `A` column `e₁`. -/
lemma runA2_eval1 : roundEval PD PD 1 = (1, e1c) := by
  simp only [roundEval]
  rw [Prod.mk.injEq]
  constructor
  · rw [computeSubcorr1_gram]
    have hq : PD * PDᵀ = PD := by
      unfold PD
      ext i j
      fin_cases i <;> fin_cases j <;>
        simp [Matrix.mul_apply, Matrix.transpose_apply, Fin.sum_univ_one,
      Fin.sum_univ_two, Matrix.one_apply, Matrix.sub_apply, Matrix.of_apply,
      Matrix.cons_val', Matrix.cons_val_zero, Matrix.cons_val_one,
      Matrix.head_cons, Matrix.tail_cons, Matrix.head_fin_const,
      Matrix.empty_val', Matrix.cons_val_fin_one, Matrix.vecHead,
      Matrix.vecTail, Matrix.vecMul, Matrix.dotProduct]
    rw [hq]
    have hn : ((colBlock PD 1)ᵀ * (PD * colBlock PD 1)) 0 0 = 1 := by
      rw [Matrix.mul_apply]
      simp [colBlock, PD, Matrix.mul_apply, Matrix.transpose_apply, Fin.sum_univ_two]
    have hd : ((colBlock PD 1)ᵀ * colBlock PD 1) 0 0 = 1 := by
      rw [Matrix.mul_apply]
      simp [colBlock, PD, Matrix.transpose_apply, Fin.sum_univ_two]
    rw [hn, hd, div_one, Real.sqrt_one]
  · funext a
    have h2 : (computeSubcorr1 (colBlock PD 1) PD).2 = fun _ => 1 := rfl
    rw [h2]
    fin_cases a <;> simp [colBlock, PD, e1c, Fin.sum_univ_one]

/-- First step of the round-2 scan. -/
lemma runA_search2a : searchRound 1 (roundEval PD PD) = ⟨0, 0, zc⟩ := by
  rw [searchRound_succ, searchRound_zero, runA2_eval0, if_pos (by norm_num)]
  rfl

/-- Round 2 on `G1`: candidate 1 wins with its deflated column. -/
lemma runA_search2 : searchRound 2 (roundEval PD PD) = ⟨1, 1, e1c⟩ := by
  rw [searchRound_succ, runA_search2a, runA2_eval1, if_pos (by norm_num)]
  rfl

/-! ### Claim C1 -/

/-- Counterexample to claim C1: it is not the case that, in every
round, the recorded topography column `A[:, k]` equals the winning
candidate's block of the *original* (whitened, un-deflated) leadfield
times the winning orientation.  At the concrete input `G1` (columns
`(1,0)` and `(1,1)`, identity basis, identity whitening, a
pseudoinverse oracle that agrees with the true pseudoinverse on the
Gram matrices of this run), round 1 selects candidate 1, records
`A[:,1] = (0,1)` from the deflated leadfield, while the original
column of candidate 1 is `(1,1)`. -/
theorem c1_counterexample :
    ¬ (∀ (m nc r : ℕ) (G : Matrix (Fin m) (Fin nc) ℝ)
        (phi : Matrix (Fin m) (Fin r) ℝ)
        (pinvO : (k : ℕ) → Matrix (Fin k) (Fin k) ℝ → Matrix (Fin k) (Fin k) ℝ)
        (n k w : ℕ), k < n →
        (loopState G phi pinvO n).active.getD k (-1) = (w : ℤ) →
        (loopState G phi pinvO n).cols.getD k (fun _ => 0) =
          fun a => colBlock G w a 0) := by
  intro h
  have hact : (loopState G1 phi2 pinvId 2).active = [0, 1] := by
    rw [loopState_succ, runA_state1, roundStep_active]
    show ([0] ++ [(searchRound 2 (roundEval PD PD)).idx] : List ℤ) = [0, 1]
    rw [runA_search2]
    rfl
  have hcol : (loopState G1 phi2 pinvId 2).cols.getD 1 (fun _ => 0) = e1c := by
    rw [loopState_succ, runA_state1, roundStep_cols]
    show ([e0c] ++ [(searchRound 2 (roundEval PD PD)).acol]).getD 1 (fun _ => 0) = e1c
    rw [runA_search2]
    simp [List.getD]
  have hinst := h 2 2 2 G1 phi2 pinvId 2 1 1 (by norm_num) (by rw [hact]; rfl)
  rw [hcol] at hinst
  have h0 := congrFun hinst 0
  simp [e1c, colBlock, G1] at h0

/-- Claim C1 amended: the recorded column `A[:, k]` is the winning
candidate's block of the *deflated working* leadfield times the winning
orientation — the `.acol` of the round-`k` SEARCH scan over
`(G_proj, phi_sig_proj)` — and for every round `k ≥ 1` the working
leadfield (and basis) equal the round-`k` projector applied to the
original leadfield (and basis).  Only at round 0 does the recorded
column come from the un-deflated leadfield. -/
theorem c1_amended {m nc r : ℕ} (G : Matrix (Fin m) (Fin nc) ℝ)
    (phi : Matrix (Fin m) (Fin r) ℝ)
    (pinvO : (k : ℕ) → Matrix (Fin k) (Fin k) ℝ → Matrix (Fin k) (Fin k) ℝ)
    (n k : ℕ) (hk : k < n) :
    (loopState G phi pinvO n).cols.getD k (fun _ => 0) =
      (searchRound nc (roundEval (loopState G phi pinvO k).Gp
        (loopState G phi pinvO k).phip)).acol ∧
    (1 ≤ k → (loopState G phi pinvO k).Gp =
      computeProj (pinvO (loopState G phi pinvO k).cols.length)
        (colsMatrix (loopState G phi pinvO k).cols) * G ∧
      (loopState G phi pinvO k).phip =
        computeProj (pinvO (loopState G phi pinvO k).cols.length)
          (colsMatrix (loopState G phi pinvO k).cols) * phi) := by
  refine ⟨loopState_cols_getD G phi pinvO n k hk, ?_⟩
  intro hk1
  obtain ⟨j, rfl⟩ : ∃ j, k = j + 1 := ⟨k - 1, by omega⟩
  exact ⟨rfl, rfl⟩

/-- Witness for the amended C1 at the concrete two-round run on `G1`,
round `k = 1` of `n = 2`. -/
theorem c1_amended_witness :
    ((loopState G1 phi2 pinvId 2).cols.getD 1 (fun _ => 0) =
      (searchRound 2 (roundEval (loopState G1 phi2 pinvId 1).Gp
        (loopState G1 phi2 pinvId 1).phip)).acol) ∧
    (1 ≤ 1 → (loopState G1 phi2 pinvId 1).Gp =
      computeProj (pinvId (loopState G1 phi2 pinvId 1).cols.length)
        (colsMatrix (loopState G1 phi2 pinvId 1).cols) * G1 ∧
      (loopState G1 phi2 pinvId 1).phip =
        computeProj (pinvId (loopState G1 phi2 pinvId 1).cols.length)
          (colsMatrix (loopState G1 phi2 pinvId 1).cols) * phi2) :=
  c1_amended G1 phi2 pinvId 2 1 (by norm_num)

/-! ### Zero-column helpers -/

/-- The `r = 1` eigenvector slice of `eighV5` is the column `e₀`. -/
lemma hphi5 : phi5 = (e0mat : Matrix (Fin 2) (Fin (min 1 2)) ℝ) := by
  ext i j
  fin_cases i <;> fin_cases j <;>
    simp [phi5, lastCols, eighV5, e0mat, Nat.min_def]

/-- Gram matrix of the `r = 1` basis: `e₀·e₀ᵀ`. -/
lemma phi5_gram : phi5 * phi5ᵀ = E00 := by
  rw [hphi5]
  show e0mat * e0matᵀ = E00
  ext i j
  fin_cases i <;> fin_cases j <;>
    simp [e0mat, E00, Matrix.mul_apply, Matrix.transpose_apply,
      Fin.sum_univ_one, Matrix.vecHead, Matrix.vecTail]

/-- The normal-orientation slice of the (identity-whitened) `gain5` is
the identity: columns 2 and 5 are `e₀` and `e₁`. -/
lemma runE_slice :
    sliceNormal ((1 : Matrix (Fin 2) (Fin 2) ℝ) * gain5) =
      (1 : Matrix (Fin 2) (Fin 2) ℝ) := by
  rw [Matrix.one_mul]
  ext i j
  fin_cases i <;> fin_cases j <;>
    simp [sliceNormal, gain5, Matrix.one_apply,
      show ((5 : Fin 6) : ℕ) = 5 from rfl, show ((2 : Fin 6) : ℕ) = 2 from rfl]

/-- Candidate block 0 of the sliced leadfield. -/
lemma runE_Gk0 : colBlock (1 : Matrix (Fin 2) (Fin 2) ℝ) 0 = e0mat := by
  funext a b
  fin_cases b
  fin_cases a <;> simp [colBlock, e0mat, Matrix.one_apply]

/-- Candidate block 1 of the sliced leadfield. -/
lemma runE_Gk1 : colBlock (1 : Matrix (Fin 2) (Fin 2) ℝ) 1 = e1mat := by
  funext a b
  fin_cases b
  fin_cases a <;> simp [colBlock, e1mat, Matrix.one_apply]

/-- Round-1 evaluation of candidate 0 in the C5 run. -/
lemma runE_eval0 :
    roundEval (1 : Matrix (Fin 2) (Fin 2) ℝ) phi5 0 = (1, e0c) := by
  simp only [roundEval]
  rw [Prod.mk.injEq]
  constructor
  · rw [computeSubcorr1_gram, phi5_gram, runE_Gk0]
    have hn : (e0matᵀ * (E00 * e0mat)) 0 0 = 1 := by
      rw [Matrix.mul_apply]
      simp [e0mat, E00, Matrix.mul_apply, Matrix.transpose_apply,
        Fin.sum_univ_two, Matrix.vecHead, Matrix.vecTail]
    have hd : (e0matᵀ * e0mat) 0 0 = 1 := by
      rw [Matrix.mul_apply]
      simp [e0mat, Matrix.transpose_apply, Fin.sum_univ_two]
    rw [hn, hd, div_one, Real.sqrt_one]
  · funext a
    have h2 : (computeSubcorr1 (colBlock (1 : Matrix (Fin 2) (Fin 2) ℝ) 0) phi5).2 =
        fun _ => 1 := rfl
    rw [h2, runE_Gk0]
    fin_cases a <;> simp [e0mat, e0c, Fin.sum_univ_one]

/-- Round-1 evaluation of candidate 1 in the C5 run: its normal column
`e₁` is orthogonal to the subspace `e₀`. -/
lemma runE_eval1 :
    (roundEval (1 : Matrix (Fin 2) (Fin 2) ℝ) phi5 1).1 = 0 := by
  simp only [roundEval]
  rw [computeSubcorr1_gram, phi5_gram, runE_Gk1]
  have hn : (e1matᵀ * (E00 * e1mat)) 0 0 = 0 := by
    rw [Matrix.mul_apply]
    simp [e1mat, E00, Matrix.mul_apply, Matrix.transpose_apply,
      Fin.sum_univ_two, Matrix.vecHead, Matrix.vecTail]
  have hd : (e1matᵀ * e1mat) 0 0 = 1 := by
    rw [Matrix.mul_apply]
    simp [e1mat, Matrix.transpose_apply, Fin.sum_univ_two]
  rw [hn, hd]
  norm_num [Real.sqrt_zero]

/-- First step of the C5 scan. -/
lemma runE_search1a :
    searchRound 1 (roundEval (1 : Matrix (Fin 2) (Fin 2) ℝ) phi5) = ⟨1, 0, e0c⟩ := by
  rw [searchRound_succ, searchRound_zero, runE_eval0, if_pos (by norm_num)]
  rfl

/-- The C5 scan selects candidate 0. -/
lemma runE_search :
    searchRound 2 (roundEval (1 : Matrix (Fin 2) (Fin 2) ℝ) phi5) = ⟨1, 0, e0c⟩ := by
  rw [searchRound_succ, runE_search1a, runE_eval1, if_neg (by norm_num)]

/-- The single-round C5 loop records the active set `[0]`. -/
lemma runE_active :
    (loopState (1 : Matrix (Fin 2) (Fin 2) ℝ) phi5 pinvId 1).active = [0] := by
  rw [loopState_succ, loopState_zero, roundStep_active]
  show ([] ++ [(searchRound 2 (roundEval (1 : Matrix (Fin 2) (Fin 2) ℝ) phi5)).idx] :
    List ℤ) = [0]
  rw [runE_search]
  rfl

/-- The C5 pipeline reports the sorted active set `[0]`. -/
lemma runE_activeSorted :
    (applyNormal gain5 1 e0mat 1 eighV5 pinvId 1 sol5).activeSorted = [0] := by
  show ((loopState (sliceNormal ((1 : Matrix (Fin 2) (Fin 2) ℝ) * gain5))
    (lastCols 1 eighV5) pinvId 1).active).insertionSort (· ≤ ·) = [0]
  rw [runE_slice]
  show ((loopState (1 : Matrix (Fin 2) (Fin 2) ℝ) phi5 pinvId 1).active).insertionSort
    (· ≤ ·) = [0]
  rw [runE_active]
  rfl

/-! ### Claim C5 -/

/-- Counterexample to claim C5: with `pick_ori='normal'` the explained
data `D = gain[:, active_set]·sol` (line 124) indexes the unsliced,
6-column `gain` directly by candidate index, not by the selected
candidate's oriented (normal-column) contribution as the claim states.
In the concrete run the selected candidate is 0, whose normal column is
`gain[:, 2] = e₀`, but the code uses `gain[:, 0] = (5, 0)`; the two
explained-data matrices differ. -/
theorem c5_counterexample :
    (applyNormal gain5 1 e0mat 1 eighV5 pinvId 1 sol5).activeSorted = [0] ∧
    (applyNormal gain5 1 e0mat 1 eighV5 pinvId 1 sol5).D ≠
      specExplainedDataNormal gain5
        (applyNormal gain5 1 e0mat 1 eighV5 pinvId 1 sol5).activeSorted sol5 := by
  refine ⟨runE_activeSorted, ?_⟩
  intro h
  have hD : (applyNormal gain5 1 e0mat 1 eighV5 pinvId 1 sol5).D 0 0 = 5 := by
    show (∑ k : Fin 1, (if hh : 0 < 3 * 2 then gain5 0 (pyIdx
      (((applyNormal gain5 1 e0mat 1 eighV5 pinvId 1 sol5).activeSorted).getD k.1 (-1))
      (3 * 2) hh) else 0) * sol5 k 0) = 5
    rw [runE_activeSorted]
    simp [Fin.sum_univ_one, sol5, gain5, pyIdx]
  have hspec : specExplainedDataNormal gain5
      (applyNormal gain5 1 e0mat 1 eighV5 pinvId 1 sol5).activeSorted sol5 0 0 = 1 := by
    rw [runE_activeSorted]
    simp [specExplainedDataNormal, Fin.sum_univ_one, sol5, gain5, pyIdx]
  rw [h, hspec] at hD
  norm_num at hD

/-- Claim C5 amended: the explained data of the pipeline is the
unwhitened `gain` with its columns indexed *directly by the sorted
active-set entries* (candidate index as raw column number, amplitudes in
discovery order), and the residual handed to the caller is the original
recording minus that matrix.  For a fixed-orientation forward (one gain
column per candidate) this coincides with the claim's description; for a
3-column-per-candidate gain it does not (see the counterexample). -/
theorem c5_amended {m nc t nsrc : ℕ} (gain : Matrix (Fin m) (Fin nc) ℝ)
    (whitener : Matrix (Fin m) (Fin m) ℝ) (dataOrig : Matrix (Fin m) (Fin t) ℝ)
    (r : ℕ) (eighVecs : Matrix (Fin m) (Fin m) ℝ)
    (pinvO : (k : ℕ) → Matrix (Fin k) (Fin k) ℝ → Matrix (Fin k) (Fin k) ℝ)
    (sol : Matrix (Fin nsrc) (Fin t) ℝ) :
    (applyFixed gain whitener dataOrig r eighVecs pinvO nsrc sol).D =
      specExplainedDataFixed gain
        (applyFixed gain whitener dataOrig r eighVecs pinvO nsrc sol).activeSorted
        sol ∧
    (applyFixed gain whitener dataOrig r eighVecs pinvO nsrc sol).resid =
      dataOrig - (applyFixed gain whitener dataOrig r eighVecs pinvO nsrc sol).D :=
  ⟨rfl, rfl⟩

end RapMusic
